import Mathlib

/-!
Verification of the Salam hash table (src/hashmap.c) and the lexer keyword
table (src/lexer.h).

The hash table is embedded shallowly: a C string key becomes a list of its
bytes (strcmp equality becomes list equality), the bucket array becomes a
list of buckets, each bucket an intrusive chain embedded as a list of
entries in chain order (head first).  A stored value of C type void* is
modelled as Option V, with none standing for the NULL pointer, so that the
NULL absence sentinel of hashmap_get can be compared against a stored NULL.
Unsigned long arithmetic in the hash wraps modulo 2 ^ 64, made explicit
with %.  Destructor invocations are modelled as a trace: each operation
returns, next to the updated table, the list of values the destructor
free_fn was invoked on, in invocation order.
-/

set_option autoImplicit false

namespace Salam

/-- A C string key: the list of its bytes up to the NUL terminator. -/
abbrev Key := List Nat

/-- One hashmap_entry_t node: the owned key copy, the stored value
(none models the NULL pointer), with the next link embedded by the
enclosing list. -/
structure Entry (V : Type) where
  key : Key
  value : Option V
  deriving Repr, DecidableEq

/-- One bucket: the chain hanging off one slot of the data array,
head of chain first. -/
abbrev Bucket (V : Type) := List (Entry V)

/-- The hashmap_t record: capacity, length and the bucket array. -/
structure Hashmap (V : Type) where
  capacity : Nat
  length : Nat
  data : List (Bucket V)
  deriving Repr, DecidableEq

/-- Modulus of unsigned long arithmetic on an LP64 build. -/
def ulongMod : Nat := 2 ^ 64

/-- One iteration of the hash loop: hash = ((hash << 5) + hash) + c,
each operation wrapping as unsigned long. -/
def hashStep (hash c : Nat) : Nat :=
  ((hash * 2 ^ 5 % ulongMod + hash) % ulongMod + c) % ulongMod

/-- hash_function: the DJB2 loop over the bytes of the key,
starting from 5381. -/
def hash_function (str : Key) : Nat :=
  str.foldl hashStep 5381

/-- hashmap_create: capacity as given, length 0, calloc'd (all-empty)
bucket array of capacity slots. -/
def hashmap_create (V : Type) (capacity : Nat) : Hashmap V :=
  { capacity := capacity, length := 0, data := List.replicate capacity [] }

/-- The while loop of the overwrite path of hashmap_put_custom: walk the
chain and replace the value of the first entry whose key is strcmp-equal,
in place. -/
def bucketReplace {V : Type} : Bucket V → Key → Option V → Bucket V
  | [], _, _ => []
  | e :: rest, key, value =>
    if e.key == key then { e with value := value } :: rest
    else e :: bucketReplace rest key value

/-- One step of the grow loop of hashmap_put_custom: push entry e onto the
front of bucket hash_function(e.key) % new_length of the new data array. -/
def rehashInsert {V : Type} (new_length : Nat) (d : List (Bucket V)) (e : Entry V) :
    List (Bucket V) :=
  d.set (hash_function e.key % new_length)
    (e :: d.getD (hash_function e.key % new_length) [])

/-- The grow branch of hashmap_put_custom: double the capacity, walk the
old array slot by slot (i from 0 to capacity - 1) and each chain head
first, moving every entry onto the front of its recomputed bucket in a
calloc'd new array of capacity * 2 slots. -/
def hashmap_grow {V : Type} (map : Hashmap V) : Hashmap V :=
  { map with
    capacity := map.capacity * 2,
    data := (((List.range map.capacity).map (fun i => map.data.getD i [])).flatten).foldl
      (rehashInsert (map.capacity * 2)) (List.replicate (map.capacity * 2) []) }

/-- The fresh-key path of hashmap_put_custom before the load check:
strdup the key into a new entry, prepend it to the front of bucket
hash % capacity, and increment length. -/
def insertNew {V : Type} (map : Hashmap V) (key : Key) (value : Option V) : Hashmap V :=
  { map with
    data := map.data.set (hash_function key % map.capacity)
      (⟨key, value⟩ :: map.data.getD (hash_function key % map.capacity) []),
    length := map.length + 1 }

/-- hashmap_put_custom.  free_fn = true models a non-NULL destructor
pointer.  Returns the updated table and the trace of values the destructor
was invoked on.  The load check (float)length / capacity >= 0.75 is the
exact comparison 3 * capacity <= 4 * length, taken on the incremented
length and the old capacity. -/
def hashmap_put_custom {V : Type} (map : Hashmap V) (key : Key) (value : Option V)
    (free_fn : Bool) : Hashmap V × List (Option V) :=
  match (map.data.getD (hash_function key % map.capacity) []).find?
      (fun e => e.key == key) with
  | some e =>
    ({ map with
        data := map.data.set (hash_function key % map.capacity)
          (bucketReplace (map.data.getD (hash_function key % map.capacity) []) key value) },
      if free_fn then [e.value] else [])
  | none =>
    if 3 * map.capacity ≤ 4 * (map.length + 1)
    then (hashmap_grow (insertNew map key value), [])
    else (insertNew map key value, [])

/-- hashmap_put: hashmap_put_custom with the non-NULL destructor free. -/
def hashmap_put {V : Type} (map : Hashmap V) (key : Key) (value : Option V) :
    Hashmap V × List (Option V) :=
  hashmap_put_custom map key value true

/-- hashmap_get: walk the chain of bucket hash % capacity; return the
value of the first strcmp-equal entry, NULL (none) if the chain runs out. -/
def hashmap_get {V : Type} (map : Hashmap V) (key : Key) : Option V :=
  match (map.data.getD (hash_function key % map.capacity) []).find?
      (fun e => e.key == key) with
  | some e => e.value
  | none => none

/-- hashmap_has: same walk as hashmap_get, returning whether a
strcmp-equal entry was found. -/
def hashmap_has {V : Type} (map : Hashmap V) (key : Key) : Bool :=
  ((map.data.getD (hash_function key % map.capacity) []).find?
    (fun e => e.key == key)).isSome

/-- The while loop of hashmap_remove: walk the chain with a prev pointer;
on the first strcmp-equal entry unlink it (returning the shortened chain)
and hand back its value.  Returns the chain unchanged and none when no
entry matches. -/
def bucketRemove {V : Type} : Bucket V → Key → Bucket V × Option (Option V)
  | [], _ => ([], none)
  | e :: rest, key =>
    if e.key == key then (rest, some e.value)
    else
      let r := bucketRemove rest key
      (e :: r.1, r.2)

/-- hashmap_remove: unlink the matching entry of bucket hash % capacity,
decrement length and return the stored value; on a miss return NULL (none)
and leave the table untouched.  No destructor runs on the value. -/
def hashmap_remove {V : Type} (map : Hashmap V) (key : Key) : Hashmap V × Option V :=
  match (bucketRemove (map.data.getD (hash_function key % map.capacity) []) key).2 with
  | some v =>
    ({ map with
        data := map.data.set (hash_function key % map.capacity)
          (bucketRemove (map.data.getD (hash_function key % map.capacity) []) key).1,
        length := map.length - 1 }, v)
  | none => (map, none)

/-- The inner while loop of hashmap_destroy_custom: visit the chain head
first, recording for each entry the released key and the value the
destructor is invoked on. -/
def destroyBucketTrace {V : Type} : Bucket V → List (Key × Option V)
  | [] => []
  | e :: rest => (e.key, e.value) :: destroyBucketTrace rest

/-- hashmap_destroy_custom: iterate slots 0 .. capacity - 1 of the data
array, visiting each chain; the result is the sequence of (released key,
destructed value) events in program order. -/
def hashmap_destroy_custom {V : Type} (map : Hashmap V) : List (Key × Option V) :=
  ((List.range map.capacity).map
    (fun i => destroyBucketTrace (map.data.getD i []))).flatten

/-- hashmap_destroy: hashmap_destroy_custom with the default destructor
free. -/
def hashmap_destroy {V : Type} (map : Hashmap V) : List (Key × Option V) :=
  hashmap_destroy_custom map

/-- All entries of the table, in slot order and chain order. -/
def entries {V : Type} (map : Hashmap V) : List (Entry V) :=
  map.data.flatten

/-- Well-formedness invariant maintained by the hashmap code: the data
array has capacity slots, capacity is positive, every entry sits in the
bucket its key hashes to, keys are unique across the table, and length
counts the entries. -/
def Wf {V : Type} (map : Hashmap V) : Prop :=
  map.data.length = map.capacity ∧
  0 < map.capacity ∧
  (∀ i : Nat, ∀ e ∈ map.data.getD i [], hash_function e.key % map.capacity = i) ∧
  ((entries map).map Entry.key).Nodup ∧
  map.length = (entries map).length

/-- The entry hashmap_get and hashmap_has inspect: the first
strcmp-equal entry of the bucket the key hashes to. -/
def getEntry {V : Type} (map : Hashmap V) (key : Key) : Option (Entry V) :=
  (map.data.getD (hash_function key % map.capacity) []).find? (fun e => e.key == key)

/-! List helper lemmas used throughout. -/

theorem getD_set_self {α : Type} (l : List α) (i : Nat) (b d : α) (h : i < l.length) :
    (l.set i b).getD i d = b := by
  induction l generalizing i with
  | nil => simp at h
  | cons x xs ih =>
    cases i with
    | zero => rfl
    | succ j => exact ih j (by simpa using h)

theorem getD_set_ne {α : Type} (l : List α) (i j : Nat) (b d : α) (h : i ≠ j) :
    (l.set i b).getD j d = l.getD j d := by
  induction l generalizing i j with
  | nil => simp [List.getD]
  | cons x xs ih =>
    cases i with
    | zero =>
      cases j with
      | zero => exact absurd rfl h
      | succ _ => rfl
    | succ i' =>
      cases j with
      | zero => rfl
      | succ j' => exact ih i' j' (fun hc => h (by simp [hc]))

theorem getD_replicate_nil {α : Type} (n i : Nat) :
    ((List.replicate n ([] : List α)).getD i []) = [] := by
  induction n generalizing i with
  | zero => simp [List.getD]
  | succ m ih =>
    cases i with
    | zero => rfl
    | succ j => exact ih j

theorem mem_getD_flatten {α : Type} (l : List (List α)) (i : Nat) (e : α)
    (h : e ∈ l.getD i []) : e ∈ l.flatten := by
  induction l generalizing i with
  | nil => simp [List.getD] at h
  | cons x xs ih =>
    cases i with
    | zero =>
      simp only [List.flatten_cons, List.mem_append]
      exact Or.inl h
    | succ j =>
      simp only [List.flatten_cons, List.mem_append]
      exact Or.inr (ih j h)

theorem mem_flatten_getD {α : Type} (l : List (List α)) (e : α)
    (h : e ∈ l.flatten) : ∃ i, i < l.length ∧ e ∈ l.getD i [] := by
  induction l with
  | nil => simp at h
  | cons x xs ih =>
    rw [List.flatten_cons, List.mem_append] at h
    rcases h with h | h
    · exact ⟨0, Nat.succ_pos _, h⟩
    · obtain ⟨i, hi, hmem⟩ := ih h
      exact ⟨i + 1, Nat.succ_lt_succ hi, hmem⟩

theorem flatten_decomp {α : Type} (l : List (List α)) (i : Nat) (h : i < l.length) :
    l.flatten = (l.take i).flatten ++ l.getD i [] ++ (l.drop (i + 1)).flatten := by
  induction l generalizing i with
  | nil => simp at h
  | cons x xs ih =>
    cases i with
    | zero => simp [List.getD]
    | succ j =>
      have := ih j (by simpa using h)
      simp only [List.take_succ_cons, List.drop_succ_cons, List.flatten_cons]
      rw [show (x :: xs).getD (j + 1) [] = xs.getD j [] from rfl, List.append_assoc,
        List.append_assoc]
      rw [this, List.append_assoc]

theorem flatten_set_decomp {α : Type} (l : List (List α)) (i : Nat) (b : List α)
    (h : i < l.length) :
    (l.set i b).flatten = (l.take i).flatten ++ b ++ (l.drop (i + 1)).flatten := by
  induction l generalizing i with
  | nil => simp at h
  | cons x xs ih =>
    cases i with
    | zero => simp
    | succ j =>
      have := ih j (by simpa using h)
      simp only [List.set_cons_succ, List.take_succ_cons, List.drop_succ_cons,
        List.flatten_cons]
      simp [this, List.append_assoc]

theorem range_getD_map_flatten {α β : Type} (f : List α → List β) (l : List (List α)) :
    ((List.range l.length).map (fun i => f (l.getD i []))).flatten
      = (l.map f).flatten := by
  induction l with
  | nil => simp
  | cons x xs ih =>
    rw [show (x :: xs).length = xs.length + 1 from rfl, List.range_succ_eq_map]
    simp only [List.map_cons, List.map_map, List.flatten_cons]
    rw [show ((fun i => f ((x :: xs).getD i [])) ∘ Nat.succ)
        = (fun i => f (xs.getD i [])) from rfl]
    rw [ih]
    rfl

/-! Basic facts about freshly created tables and about getEntry. -/

theorem flatten_replicate_nil {α : Type} (n : Nat) :
    (List.replicate n ([] : List α)).flatten = [] := by
  induction n with
  | zero => rfl
  | succ m ih => simp [ih]

theorem wf_create {V : Type} (capacity : Nat) (h : 0 < capacity) :
    Wf (hashmap_create V capacity) := by
  refine ⟨by simp [hashmap_create], by simpa [hashmap_create] using h, ?_, ?_, ?_⟩
  · intro i e he
    rw [hashmap_create] at he
    simp only [getD_replicate_nil] at he
    exact absurd he (List.not_mem_nil e)
  · simp [entries, hashmap_create, flatten_replicate_nil]
  · simp [entries, hashmap_create, flatten_replicate_nil]

theorem getEntry_create {V : Type} (capacity : Nat) (key : Key) :
    getEntry (hashmap_create V capacity) key = none := by
  simp [getEntry, hashmap_create, getD_replicate_nil]

theorem hashmap_get_eq_getEntry {V : Type} (map : Hashmap V) (key : Key) :
    hashmap_get map key = (getEntry map key).bind Entry.value := by
  rw [hashmap_get, getEntry]
  cases (map.data.getD (hash_function key % map.capacity) []).find?
      (fun e => e.key == key) <;> rfl

theorem hashmap_has_eq_getEntry {V : Type} (map : Hashmap V) (key : Key) :
    hashmap_has map key = (getEntry map key).isSome := rfl

theorem entry_unique {V : Type} {map : Hashmap V} (h : Wf map) {e₁ e₂ : Entry V}
    (h₁ : e₁ ∈ entries map) (h₂ : e₂ ∈ entries map) (hk : e₁.key = e₂.key) :
    e₁ = e₂ :=
  List.inj_on_of_nodup_map h.2.2.2.1 h₁ h₂ hk

theorem getEntry_eq_some_iff {V : Type} {map : Hashmap V} (h : Wf map)
    (key : Key) (e : Entry V) :
    getEntry map key = some e ↔ e ∈ entries map ∧ e.key = key := by
  constructor
  · intro hf
    rw [getEntry] at hf
    refine ⟨mem_getD_flatten _ _ _ (List.mem_of_find?_eq_some hf), ?_⟩
    simpa using List.find?_some hf
  · rintro ⟨hmem, hkey⟩
    obtain ⟨i, hi, hbi⟩ := mem_flatten_getD _ _ hmem
    have hidx : hash_function e.key % map.capacity = i := h.2.2.1 i e hbi
    have hieq : i = hash_function key % map.capacity := by rw [← hidx, hkey]
    subst hieq
    rw [getEntry]
    cases hfind : (map.data.getD (hash_function key % map.capacity) []).find?
        (fun x => x.key == key) with
    | none =>
      rw [List.find?_eq_none] at hfind
      exact absurd (by simpa using hkey) (hfind e hbi)
    | some e' =>
      have he'key : e'.key = key := by simpa using List.find?_some hfind
      have he'mem : e' ∈ entries map :=
        mem_getD_flatten _ _ _ (List.mem_of_find?_eq_some hfind)
      rw [entry_unique h he'mem hmem (by rw [he'key, hkey])]

theorem getEntry_eq_none_iff {V : Type} {map : Hashmap V} (h : Wf map) (key : Key) :
    getEntry map key = none ↔ ∀ e ∈ entries map, e.key ≠ key := by
  constructor
  · intro hf e hmem hkey
    have := (getEntry_eq_some_iff h key e).mpr ⟨hmem, hkey⟩
    rw [hf] at this
    exact Option.noConfusion this
  · intro hall
    cases hfind : getEntry map key with
    | none => rfl
    | some e =>
      obtain ⟨hmem, hkey⟩ := (getEntry_eq_some_iff h key e).mp hfind
      exact absurd hkey (hall e hmem)

theorem getEntry_key {V : Type} {map : Hashmap V} {key : Key} {e : Entry V}
    (hf : getEntry map key = some e) : e.key = key := by
  rw [getEntry] at hf
  simpa using List.find?_some hf

theorem getEntry_mem_bucket {V : Type} {map : Hashmap V} {key : Key} {e : Entry V}
    (hf : getEntry map key = some e) :
    e ∈ map.data.getD (hash_function key % map.capacity) [] := by
  rw [getEntry] at hf
  exact List.mem_of_find?_eq_some hf

/-! The grow loop: redistributing entries preserves their multiset,
re-establishes the bucket-placement invariant for the doubled capacity,
and keeps the slot count. -/

theorem rehashInsert_length {V : Type} (new_length : Nat) (d : List (Bucket V))
    (e : Entry V) : (rehashInsert new_length d e).length = d.length := by
  simp [rehashInsert]

theorem rehashInsert_flatten_perm {V : Type} (new_length : Nat) (d : List (Bucket V))
    (e : Entry V) (hlen : d.length = new_length) (hpos : 0 < new_length) :
    (rehashInsert new_length d e).flatten.Perm (e :: d.flatten) := by
  have hidx : hash_function e.key % new_length < d.length := by
    rw [hlen]; exact Nat.mod_lt _ hpos
  rw [rehashInsert, flatten_set_decomp _ _ _ hidx, flatten_decomp d _ hidx]
  have hsplit : (d.take (hash_function e.key % new_length)).flatten
        ++ (e :: d.getD (hash_function e.key % new_length) [])
        ++ (d.drop (hash_function e.key % new_length + 1)).flatten
      = (d.take (hash_function e.key % new_length)).flatten
        ++ e :: (d.getD (hash_function e.key % new_length) []
          ++ (d.drop (hash_function e.key % new_length + 1)).flatten) := by
    simp [List.append_assoc]
  rw [hsplit, List.append_assoc]
  exact List.perm_middle

theorem rehashInsert_bucket_inv {V : Type} (new_length : Nat) (d : List (Bucket V))
    (e : Entry V) (hlen : d.length = new_length) (hpos : 0 < new_length)
    (hinv : ∀ i : Nat, ∀ x ∈ d.getD i [], hash_function x.key % new_length = i) :
    ∀ i : Nat, ∀ x ∈ (rehashInsert new_length d e).getD i [],
      hash_function x.key % new_length = i := by
  intro i x hx
  rw [rehashInsert] at hx
  by_cases hi : hash_function e.key % new_length = i
  · rw [← hi] at hx ⊢
    rw [getD_set_self _ _ _ _ (by rw [hlen]; exact Nat.mod_lt _ hpos)] at hx
    rcases List.mem_cons.mp hx with hx | hx
    · rw [hx]
    · exact hinv _ x hx
  · rw [getD_set_ne _ _ _ _ _ hi] at hx
    exact hinv i x hx

theorem rehashFold_length {V : Type} (new_length : Nat) (es : List (Entry V)) :
    ∀ d : List (Bucket V), (es.foldl (rehashInsert new_length) d).length = d.length := by
  induction es with
  | nil => intro d; rfl
  | cons e rest ih =>
    intro d
    rw [List.foldl_cons, ih, rehashInsert_length]

theorem rehashFold_flatten_perm {V : Type} (new_length : Nat) (hpos : 0 < new_length)
    (es : List (Entry V)) :
    ∀ d : List (Bucket V), d.length = new_length →
      (es.foldl (rehashInsert new_length) d).flatten.Perm (es ++ d.flatten) := by
  induction es with
  | nil => intro d _; simp
  | cons e rest ih =>
    intro d hlen
    rw [List.foldl_cons]
    have h1 := ih (rehashInsert new_length d e)
      (by rw [rehashInsert_length, hlen])
    refine h1.trans ?_
    have h2 : (rest ++ (rehashInsert new_length d e).flatten).Perm
        (rest ++ (e :: d.flatten)) :=
      (rehashInsert_flatten_perm new_length d e hlen hpos).append_left rest
    exact h2.trans List.perm_middle

theorem rehashFold_bucket_inv {V : Type} (new_length : Nat) (hpos : 0 < new_length)
    (es : List (Entry V)) :
    ∀ d : List (Bucket V), d.length = new_length →
      (∀ i : Nat, ∀ x ∈ d.getD i [], hash_function x.key % new_length = i) →
      ∀ i : Nat, ∀ x ∈ (es.foldl (rehashInsert new_length) d).getD i [],
        hash_function x.key % new_length = i := by
  induction es with
  | nil => intro d _ hinv; exact hinv
  | cons e rest ih =>
    intro d hlen hinv
    rw [List.foldl_cons]
    exact ih (rehashInsert new_length d e) (by rw [rehashInsert_length, hlen])
      (rehashInsert_bucket_inv new_length d e hlen hpos hinv)

theorem grow_capacity {V : Type} (map : Hashmap V) :
    (hashmap_grow map).capacity = map.capacity * 2 := rfl

theorem grow_length {V : Type} (map : Hashmap V) :
    (hashmap_grow map).length = map.length := rfl

theorem grow_entries_perm {V : Type} (map : Hashmap V)
    (hlen : map.data.length = map.capacity) (hpos : 0 < map.capacity) :
    (entries (hashmap_grow map)).Perm (entries map) := by
  have hpos2 : 0 < map.capacity * 2 := by omega
  have h1 := rehashFold_flatten_perm (map.capacity * 2) hpos2
    (((List.range map.capacity).map (fun i => map.data.getD i [])).flatten)
    (List.replicate (map.capacity * 2) []) (by simp)
  rw [flatten_replicate_nil, List.append_nil] at h1
  have h2 : ((List.range map.capacity).map (fun i => map.data.getD i [])).flatten
      = entries map := by
    rw [← hlen, range_getD_map_flatten (fun b => b)]
    simp [entries]
  have h3 : entries (hashmap_grow map)
      = ((((List.range map.capacity).map (fun i => map.data.getD i [])).flatten).foldl
          (rehashInsert (map.capacity * 2)) (List.replicate (map.capacity * 2) [])).flatten :=
    rfl
  rw [h2] at h1
  rw [h3, h2]
  exact h1

theorem grow_wf {V : Type} {map : Hashmap V} (h : Wf map) : Wf (hashmap_grow map) := by
  obtain ⟨hlen, hpos, hinv, hnodup, hcount⟩ := h
  have hpos2 : 0 < map.capacity * 2 := by omega
  have hperm := grow_entries_perm map hlen hpos
  have hdata : (hashmap_grow map).data
      = (((List.range map.capacity).map (fun i => map.data.getD i [])).flatten).foldl
          (rehashInsert (map.capacity * 2)) (List.replicate (map.capacity * 2) []) := rfl
  refine ⟨?_, ?_, ?_, ?_, ?_⟩
  · rw [hdata, rehashFold_length]
    simp [grow_capacity]
  · simpa [grow_capacity] using hpos2
  · intro i e he
    rw [grow_capacity]
    refine rehashFold_bucket_inv (map.capacity * 2) hpos2 _ _ (by simp) ?_ i e he
    intro j x hx
    rw [getD_replicate_nil] at hx
    exact absurd hx (List.not_mem_nil x)
  · exact (hperm.map Entry.key).nodup_iff.mpr hnodup
  · rw [grow_length, hperm.length_eq, hcount]

theorem grow_getEntry {V : Type} {map : Hashmap V} (h : Wf map) (key : Key) :
    getEntry (hashmap_grow map) key = getEntry map key := by
  have hg := grow_wf h
  have hperm := grow_entries_perm map h.1 h.2.1
  cases hfind : getEntry map key with
  | none =>
    rw [getEntry_eq_none_iff hg]
    intro e hmem
    exact (getEntry_eq_none_iff h key).mp hfind e (hperm.mem_iff.mp hmem)
  | some e =>
    obtain ⟨hmem, hkey⟩ := (getEntry_eq_some_iff h key e).mp hfind
    exact (getEntry_eq_some_iff hg key e).mpr ⟨hperm.mem_iff.mpr hmem, hkey⟩

/-! The overwrite path: bucketReplace keeps every key in place and only
changes the value of the first strcmp-equal entry. -/

theorem bucketReplace_map_key {V : Type} (b : Bucket V) (key : Key) (value : Option V) :
    (bucketReplace b key value).map Entry.key = b.map Entry.key := by
  induction b with
  | nil => rfl
  | cons e rest ih =>
    rw [bucketReplace]
    by_cases hk : e.key == key
    · simp [hk]
    · simp [hk, ih]

theorem bucketReplace_find {V : Type} (b : Bucket V) (key : Key) (value : Option V)
    (k' : Key) :
    (bucketReplace b key value).find? (fun e => e.key == k')
      = if k' = key
        then (b.find? (fun e => e.key == key)).map (fun e => { e with value := value })
        else b.find? (fun e => e.key == k') := by
  induction b with
  | nil => by_cases hk : k' = key <;> simp [bucketReplace, hk]
  | cons e rest ih =>
    by_cases hek : e.key = key <;> by_cases hk : k' = key
    all_goals try simp_all [bucketReplace, List.find?_cons]
    have hkey2 : (key == k') = false := beq_eq_false_iff_ne.mpr (fun hc => hk hc.symm)
    rw [hkey2]

theorem map_set_bucket {α : Type} {β : Type} (data : List (List α)) (idx : Nat)
    (b' : List α) (f : List α → β) (hkeys : f b' = f (data.getD idx [])) :
    (data.set idx b').map f = data.map f := by
  induction data generalizing idx with
  | nil => rfl
  | cons x xs ih =>
    cases idx with
    | zero => simp only [List.set_cons_zero, List.map_cons]; rw [hkeys]; rfl
    | succ j => simp only [List.set_cons_succ, List.map_cons]; rw [ih j hkeys]

/-- The two branches of hashmap_put_custom, as equations. -/
theorem put_custom_replace {V : Type} {map : Hashmap V} {key : Key} {e : Entry V}
    (hfind : getEntry map key = some e) (value : Option V) (free_fn : Bool) :
    hashmap_put_custom map key value free_fn =
      ({ map with
          data := map.data.set (hash_function key % map.capacity)
            (bucketReplace (map.data.getD (hash_function key % map.capacity) [])
              key value) },
        if free_fn then [e.value] else []) := by
  rw [getEntry] at hfind
  rw [hashmap_put_custom, hfind]

theorem put_custom_fresh {V : Type} {map : Hashmap V} {key : Key}
    (hfind : getEntry map key = none) (value : Option V) (free_fn : Bool) :
    hashmap_put_custom map key value free_fn =
      if 3 * map.capacity ≤ 4 * (map.length + 1)
        then (hashmap_grow (insertNew map key value), ([] : List (Option V)))
        else (insertNew map key value, []) := by
  rw [getEntry] at hfind
  rw [hashmap_put_custom, hfind]

/-! Effect of the two hashmap_put_custom paths on well-formedness and on
getEntry. -/

theorem put_replace_facts {V : Type} {map : Hashmap V} (h : Wf map) {key : Key}
    {e : Entry V} (hfind : getEntry map key = some e) (value : Option V)
    (free_fn : Bool) :
    Wf (hashmap_put_custom map key value free_fn).1 ∧
    (hashmap_put_custom map key value free_fn).2 = (if free_fn then [e.value] else []) ∧
    (hashmap_put_custom map key value free_fn).1.capacity = map.capacity ∧
    (hashmap_put_custom map key value free_fn).1.length = map.length ∧
    (hashmap_put_custom map key value free_fn).1.data.map (fun b => b.map Entry.key)
      = map.data.map (fun b => b.map Entry.key) ∧
    (∀ k', getEntry (hashmap_put_custom map key value free_fn).1 k'
      = if k' = key then some ⟨key, value⟩ else getEntry map k') := by
  obtain ⟨hlen, hpos, hinv, hnodup, hcount⟩ := h
  have hekey : e.key = key := getEntry_key hfind
  have hidx : hash_function key % map.capacity < map.data.length := by
    rw [hlen]; exact Nat.mod_lt _ hpos
  rw [put_custom_replace hfind]
  have hkeysmap : (map.data.set (hash_function key % map.capacity)
        (bucketReplace (map.data.getD (hash_function key % map.capacity) [])
          key value)).map (fun b => b.map Entry.key)
      = map.data.map (fun b => b.map Entry.key) :=
    map_set_bucket _ _ _ _ (by rw [bucketReplace_map_key])
  have hflatkeys : ((map.data.set (hash_function key % map.capacity)
        (bucketReplace (map.data.getD (hash_function key % map.capacity) [])
          key value)).flatten).map Entry.key
      = (map.data.flatten).map Entry.key := by
    rw [List.map_flatten, List.map_flatten, hkeysmap]
  refine ⟨⟨by simpa using hlen, hpos, ?_, ?_, ?_⟩, rfl, rfl, rfl, hkeysmap, ?_⟩
  · intro i x hx
    by_cases hi : hash_function key % map.capacity = i
    · rw [← hi] at hx ⊢
      rw [getD_set_self _ _ _ _ hidx] at hx
      have : x.key ∈ (bucketReplace (map.data.getD (hash_function key % map.capacity) [])
          key value).map Entry.key := List.mem_map_of_mem Entry.key hx
      rw [bucketReplace_map_key] at this
      obtain ⟨y, hy, hyk⟩ := List.mem_map.mp this
      rw [← hyk]
      exact hinv _ y hy
    · rw [getD_set_ne _ _ _ _ _ hi] at hx
      exact hinv i x hx
  · show ((map.data.set _ _).flatten.map Entry.key).Nodup
    rw [hflatkeys]
    exact hnodup
  · show map.length = (map.data.set _ _).flatten.length
    have h1 : ((map.data.set (hash_function key % map.capacity)
          (bucketReplace (map.data.getD (hash_function key % map.capacity) [])
            key value)).flatten).length
        = ((map.data.flatten).map Entry.key).length := by
      rw [← hflatkeys, List.length_map]
    rw [List.length_map] at h1
    rw [h1]
    exact hcount
  · intro k'
    by_cases hk : k' = key
    · subst hk
      rw [getEntry] at hfind ⊢
      show (List.getD (map.data.set _ _) _ []).find? _ = _
      rw [getD_set_self _ _ _ _ hidx, bucketReplace_find, if_pos rfl, hfind, if_pos rfl]
      cases e with
      | mk k v =>
        simp at hekey
        rw [hekey]
        rfl
    · rw [getEntry, getEntry]
      show (List.getD (map.data.set _ _) _ []).find? _ = _
      rw [if_neg hk]
      by_cases hi : hash_function k' % map.capacity
          = hash_function key % map.capacity
      · rw [hi, getD_set_self _ _ _ _ hidx, bucketReplace_find, if_neg hk]
      · rw [getD_set_ne _ _ _ _ _ (fun hc => hi hc.symm)]

theorem insertNew_entries_perm {V : Type} {map : Hashmap V} (h : Wf map)
    (key : Key) (value : Option V) :
    (entries (insertNew map key value)).Perm (⟨key, value⟩ :: entries map) :=
  rehashInsert_flatten_perm map.capacity map.data ⟨key, value⟩ h.1 h.2.1

theorem insertNew_wf {V : Type} {map : Hashmap V} (h : Wf map) {key : Key}
    (hfind : getEntry map key = none) (value : Option V) :
    Wf (insertNew map key value) := by
  obtain ⟨hlen, hpos, hinv, hnodup, hcount⟩ := h
  have hperm := insertNew_entries_perm ⟨hlen, hpos, hinv, hnodup, hcount⟩ key value
  have hfresh : ∀ x ∈ entries map, x.key ≠ key :=
    (getEntry_eq_none_iff ⟨hlen, hpos, hinv, hnodup, hcount⟩ key).mp hfind
  refine ⟨by simpa [insertNew] using hlen, hpos, ?_, ?_, ?_⟩
  · intro i x hx
    exact rehashInsert_bucket_inv map.capacity map.data ⟨key, value⟩ hlen hpos hinv i x hx
  · have h1 : ((entries (insertNew map key value)).map Entry.key).Perm
        (key :: (entries map).map Entry.key) := hperm.map Entry.key
    rw [h1.nodup_iff, List.nodup_cons]
    constructor
    · intro hmem
      obtain ⟨x, hx, hxk⟩ := List.mem_map.mp hmem
      exact hfresh x hx hxk
    · exact hnodup
  · show map.length + 1 = (entries (insertNew map key value)).length
    rw [hperm.length_eq]
    simp [hcount]

theorem insertNew_getEntry {V : Type} {map : Hashmap V} (h : Wf map)
    (key : Key) (value : Option V) (k' : Key) :
    getEntry (insertNew map key value) k'
      = if k' = key then some ⟨key, value⟩ else getEntry map k' := by
  have hidx : hash_function key % map.capacity < map.data.length := by
    rw [h.1]; exact Nat.mod_lt _ h.2.1
  have hcap : (insertNew map key value).capacity = map.capacity := rfl
  have hdata : (insertNew map key value).data
      = map.data.set (hash_function key % map.capacity)
        (⟨key, value⟩ :: map.data.getD (hash_function key % map.capacity) []) := rfl
  rw [getEntry, hcap, hdata]
  by_cases hk : k' = key
  · subst hk
    rw [if_pos rfl, getD_set_self _ _ _ _ hidx]
    rw [List.find?_cons_of_pos _ (by simp)]
  · rw [if_neg hk]
    by_cases hi : hash_function k' % map.capacity = hash_function key % map.capacity
    · rw [hi, getD_set_self _ _ _ _ hidx]
      rw [List.find?_cons_of_neg _ (by simp; exact fun hc => hk hc.symm)]
      rw [getEntry, hi]
    · rw [getD_set_ne _ _ _ _ _ (fun hc => hi hc.symm), getEntry]

theorem put_wf {V : Type} {map : Hashmap V} (h : Wf map) (key : Key)
    (value : Option V) (free_fn : Bool) :
    Wf (hashmap_put_custom map key value free_fn).1 := by
  cases hfind : getEntry map key with
  | some e => exact (put_replace_facts h hfind value free_fn).1
  | none =>
    rw [put_custom_fresh hfind]
    split
    · exact grow_wf (insertNew_wf h hfind value)
    · exact insertNew_wf h hfind value

theorem put_getEntry {V : Type} {map : Hashmap V} (h : Wf map) (key : Key)
    (value : Option V) (free_fn : Bool) (k' : Key) :
    getEntry (hashmap_put_custom map key value free_fn).1 k'
      = if k' = key then some ⟨key, value⟩ else getEntry map k' := by
  cases hfind : getEntry map key with
  | some e => exact (put_replace_facts h hfind value free_fn).2.2.2.2.2 k'
  | none =>
    rw [put_custom_fresh hfind]
    split
    · show getEntry (hashmap_grow (insertNew map key value)) k' = _
      rw [grow_getEntry (insertNew_wf h hfind value)]
      exact insertNew_getEntry h key value k'
    · exact insertNew_getEntry h key value k'

/-! Effect of hashmap_remove on well-formedness and getEntry. -/

theorem bucketRemove_nomatch {V : Type} (b : Bucket V) (key : Key)
    (h : ∀ x ∈ b, x.key ≠ key) : bucketRemove b key = (b, none) := by
  induction b with
  | nil => rfl
  | cons e rest ih =>
    rw [bucketRemove, if_neg (by simpa using h e (List.mem_cons_self e rest))]
    have := ih (fun x hx => h x (List.mem_cons_of_mem e hx))
    simp [this]

theorem bucketRemove_found {V : Type} (b : Bucket V) (key : Key) (e : Entry V)
    (h : b.find? (fun x => x.key == key) = some e) :
    ∃ b₁ b₂, b = b₁ ++ e :: b₂ ∧ (∀ x ∈ b₁, x.key ≠ key) ∧
      bucketRemove b key = (b₁ ++ b₂, some e.value) := by
  induction b with
  | nil => simp at h
  | cons x rest ih =>
    by_cases hx : x.key = key
    · have hfx : (x :: rest).find? (fun y => y.key == key) = some x :=
        List.find?_cons_of_pos _ (by simpa using hx)
      rw [hfx] at h
      have hxe : x = e := by simpa using h
      refine ⟨[], rest, by simp [hxe], by simp, ?_⟩
      rw [bucketRemove, if_pos (by simpa using hx)]
      simp [hxe]
    · have hfind : rest.find? (fun y => y.key == key) = some e := by
        rwa [List.find?_cons_of_neg _ (by simpa using hx)] at h
      obtain ⟨b₁, b₂, heq, hpre, hrem⟩ := ih hfind
      refine ⟨x :: b₁, b₂, by simp [heq], ?_, ?_⟩
      · intro y hy
        rcases List.mem_cons.mp hy with hy | hy
        · rw [hy]; exact hx
        · exact hpre y hy
      · rw [bucketRemove, if_neg (by simpa using hx)]
        simp [hrem]

theorem hashmap_remove_miss {V : Type} {map : Hashmap V} {key : Key}
    (hfind : getEntry map key = none) :
    hashmap_remove map key = (map, none) := by
  rw [getEntry, List.find?_eq_none] at hfind
  have hb : bucketRemove (map.data.getD (hash_function key % map.capacity) []) key
      = (map.data.getD (hash_function key % map.capacity) [], none) :=
    bucketRemove_nomatch _ _ (fun x hx => by simpa using hfind x hx)
  rw [hashmap_remove, hb]

theorem hashmap_remove_hit {V : Type} {map : Hashmap V} (h : Wf map) {key : Key}
    {e : Entry V} (hfind : getEntry map key = some e) :
    (hashmap_remove map key).2 = e.value ∧
    Wf (hashmap_remove map key).1 ∧
    (hashmap_remove map key).1.capacity = map.capacity ∧
    (hashmap_remove map key).1.length + 1 = map.length ∧
    (∀ k', getEntry (hashmap_remove map key).1 k'
      = if k' = key then none else getEntry map k') := by
  obtain ⟨hlen, hpos, hinv, hnodup, hcount⟩ := h
  have hekey : e.key = key := getEntry_key hfind
  have hidx : hash_function key % map.capacity < map.data.length := by
    rw [hlen]; exact Nat.mod_lt _ hpos
  rw [getEntry] at hfind
  obtain ⟨b₁, b₂, heq, hpre, hrem⟩ := bucketRemove_found _ _ _ hfind
  have hR : hashmap_remove map key
      = ({ map with
            data := map.data.set (hash_function key % map.capacity) (b₁ ++ b₂),
            length := map.length - 1 }, e.value) := by
    rw [hashmap_remove, hrem]
  have hdecold : entries map
      = (map.data.take (hash_function key % map.capacity)).flatten
        ++ (b₁ ++ e :: b₂)
        ++ (map.data.drop (hash_function key % map.capacity + 1)).flatten := by
    rw [entries, flatten_decomp map.data _ hidx, heq]
  have hdecnew : (map.data.set (hash_function key % map.capacity) (b₁ ++ b₂)).flatten
      = (map.data.take (hash_function key % map.capacity)).flatten
        ++ (b₁ ++ b₂)
        ++ (map.data.drop (hash_function key % map.capacity + 1)).flatten :=
    flatten_set_decomp map.data _ _ hidx
  have hperm : (entries map).Perm
      (e :: (map.data.set (hash_function key % map.capacity) (b₁ ++ b₂)).flatten) := by
    rw [hdecold, hdecnew]
    have h1 : (map.data.take (hash_function key % map.capacity)).flatten
          ++ (b₁ ++ e :: b₂)
          ++ (map.data.drop (hash_function key % map.capacity + 1)).flatten
        = ((map.data.take (hash_function key % map.capacity)).flatten ++ b₁)
          ++ e :: (b₂ ++ (map.data.drop (hash_function key % map.capacity + 1)).flatten) := by
      simp [List.append_assoc]
    have h2 : (map.data.take (hash_function key % map.capacity)).flatten
          ++ (b₁ ++ b₂)
          ++ (map.data.drop (hash_function key % map.capacity + 1)).flatten
        = ((map.data.take (hash_function key % map.capacity)).flatten ++ b₁)
          ++ (b₂ ++ (map.data.drop (hash_function key % map.capacity + 1)).flatten) := by
      simp [List.append_assoc]
    rw [h1, h2]
    exact List.perm_middle
  have hkperm : ((entries map).map Entry.key).Perm
      (e.key :: ((map.data.set (hash_function key % map.capacity) (b₁ ++ b₂)).flatten).map
        Entry.key) := by
    simpa using hperm.map Entry.key
  have hnodupcons := hkperm.nodup_iff.mp hnodup
  have hkeynotin := (List.nodup_cons.mp hnodupcons).1
  have hnodupnew := (List.nodup_cons.mp hnodupcons).2
  have hlennew : map.length
      = ((map.data.set (hash_function key % map.capacity) (b₁ ++ b₂)).flatten).length + 1 := by
    rw [hcount, hperm.length_eq]
    rfl
  have hwfR : Wf (hashmap_remove map key).1 := by
    rw [hR]
    refine ⟨by simpa using hlen, hpos, ?_, hnodupnew, ?_⟩
    · intro i x hx
      by_cases hi : hash_function key % map.capacity = i
      · rw [← hi] at hx ⊢
        rw [getD_set_self _ _ _ _ hidx] at hx
        have hxb : x ∈ map.data.getD (hash_function key % map.capacity) [] := by
          rw [heq]
          rcases List.mem_append.mp hx with hx | hx
          · exact List.mem_append.mpr (Or.inl hx)
          · exact List.mem_append.mpr (Or.inr (List.mem_cons_of_mem e hx))
        exact hinv _ x hxb
      · rw [getD_set_ne _ _ _ _ _ hi] at hx
        exact hinv i x hx
    · show map.length - 1
          = ((map.data.set (hash_function key % map.capacity) (b₁ ++ b₂)).flatten).length
      omega
  refine ⟨by rw [hR], hwfR, by rw [hR], ?_, ?_⟩
  · rw [hR]
    show map.length - 1 + 1 = map.length
    omega
  intro k'
  by_cases hk : k' = key
  · subst hk
    rw [if_pos rfl]
    rw [getEntry_eq_none_iff hwfR]
    intro x hx hxk
    have hx' : x ∈ (map.data.set (hash_function k' % map.capacity) (b₁ ++ b₂)).flatten := by
      rw [hR] at hx
      exact hx
    have hmem2 : x.key ∈ ((map.data.set (hash_function k' % map.capacity)
        (b₁ ++ b₂)).flatten).map Entry.key := List.mem_map_of_mem Entry.key hx'
    have hxe : x.key = e.key := hxk.trans hekey.symm
    rw [← hxe] at hkeynotin
    exact hkeynotin hmem2
  · rw [if_neg hk, hR]
    have hcap : ({ map with
        data := map.data.set (hash_function key % map.capacity) (b₁ ++ b₂),
        length := map.length - 1 } : Hashmap V).capacity = map.capacity := rfl
    have hdata : ({ map with
        data := map.data.set (hash_function key % map.capacity) (b₁ ++ b₂),
        length := map.length - 1 } : Hashmap V).data
      = map.data.set (hash_function key % map.capacity) (b₁ ++ b₂) := rfl
    rw [getEntry, getEntry, hcap, hdata]
    by_cases hi : hash_function k' % map.capacity = hash_function key % map.capacity
    · rw [hi, getD_set_self _ _ _ _ hidx, heq]
      rw [List.find?_append, List.find?_append,
        List.find?_cons_of_neg _ (by simp [hekey]; exact fun hc => hk hc.symm)]
    · rw [getD_set_ne _ _ _ _ _ (fun hc => hi hc.symm)]

/-! Sequences of mutating operations, and the spec's reference model. -/

/-- One mutating call against the table. -/
inductive Op (V : Type) where
  | put : Key → Option V → Op V
  | put_custom : Key → Option V → Bool → Op V
  | remove : Key → Op V

/-- Run one operation, keeping the updated table. -/
def applyOp {V : Type} (map : Hashmap V) : Op V → Hashmap V
  | Op.put k v => (hashmap_put map k v).1
  | Op.put_custom k v fn => (hashmap_put_custom map k v fn).1
  | Op.remove k => (hashmap_remove map k).1

/-- Run a sequence of operations left to right. -/
def applyOps {V : Type} (map : Hashmap V) (ops : List (Op V)) : Hashmap V :=
  ops.foldl applyOp map

/-- The spec's reference model, from its words: a put binds the key to the
value it carries, a remove unbinds it, later operations win (last-writer-
wins). -/
def specStep {V : Type} (s : Key → Option (Option V)) : Op V → Key → Option (Option V)
  | Op.put k v, k' => if k' = k then some v else s k'
  | Op.put_custom k v _, k' => if k' = k then some v else s k'
  | Op.remove k, k' => if k' = k then none else s k'

/-- The reference model after a sequence of operations, starting from the
empty binding. -/
def specRun {V : Type} (ops : List (Op V)) : Key → Option (Option V) :=
  ops.foldl specStep (fun _ => none)

theorem applyOps_invariant {V : Type} (ops : List (Op V)) :
    ∀ (map : Hashmap V) (s : Key → Option (Option V)), Wf map →
      (∀ k, (getEntry map k).map Entry.value = s k) →
      Wf (applyOps map ops) ∧
      (∀ k, (getEntry (applyOps map ops) k).map Entry.value = ops.foldl specStep s k) := by
  induction ops with
  | nil => intro map s hwf habs; exact ⟨hwf, by simpa using habs⟩
  | cons op rest ih =>
    intro map s hwf habs
    have hstep : Wf (applyOp map op) ∧
        (∀ k', (getEntry (applyOp map op) k').map Entry.value = specStep s op k') := by
      cases op with
      | put k v =>
        refine ⟨put_wf hwf k v true, fun k' => ?_⟩
        show ((getEntry (hashmap_put_custom map k v true).1 k').map Entry.value) = _
        rw [put_getEntry hwf k v true k']
        by_cases hk : k' = k <;> simp [specStep, hk, habs k']
      | put_custom k v fn =>
        refine ⟨put_wf hwf k v fn, fun k' => ?_⟩
        show ((getEntry (hashmap_put_custom map k v fn).1 k').map Entry.value) = _
        rw [put_getEntry hwf k v fn k']
        by_cases hk : k' = k <;> simp [specStep, hk, habs k']
      | remove k =>
        cases hfind : getEntry map k with
        | some e =>
          obtain ⟨hv, hwf', hcap, hlen, hget⟩ := hashmap_remove_hit hwf hfind
          refine ⟨hwf', fun k' => ?_⟩
          show ((getEntry (hashmap_remove map k).1 k').map Entry.value) = _
          rw [hget k']
          by_cases hk : k' = k <;> simp [specStep, hk, habs k']
        | none =>
          have hmiss := hashmap_remove_miss hfind
          refine ⟨?_, fun k' => ?_⟩
          · show Wf (hashmap_remove map k).1
            rw [hmiss]
            exact hwf
          show ((getEntry (hashmap_remove map k).1 k').map Entry.value) = _
          rw [hmiss]
          by_cases hk : k' = k
          · simp [specStep, hk, hfind]
          · simp [specStep, hk, habs k']
    have h1 := ih (applyOp map op) (specStep s op) hstep.1 hstep.2
    constructor
    · show Wf (List.foldl applyOp (applyOp map op) rest)
      exact h1.1
    · intro k
      show (getEntry (List.foldl applyOp (applyOp map op) rest) k).map Entry.value
          = List.foldl specStep (specStep s op) rest k
      exact h1.2 k

/-! The load-factor invariant: 4 * length < 3 * capacity, preserved by
every operation. -/

theorem put_load {V : Type} (map : Hashmap V) (key : Key) (value : Option V)
    (free_fn : Bool) (hpos : 0 < map.capacity)
    (hload : 4 * map.length < 3 * map.capacity) :
    0 < (hashmap_put_custom map key value free_fn).1.capacity ∧
    4 * (hashmap_put_custom map key value free_fn).1.length
      < 3 * (hashmap_put_custom map key value free_fn).1.capacity := by
  cases hfind : getEntry map key with
  | some e =>
    rw [put_custom_replace hfind]
    exact ⟨hpos, hload⟩
  | none =>
    rw [put_custom_fresh hfind]
    by_cases hgrow : 3 * map.capacity ≤ 4 * (map.length + 1)
    · rw [if_pos hgrow]
      constructor
      · show 0 < map.capacity * 2
        omega
      · show 4 * (map.length + 1) < 3 * (map.capacity * 2)
        clear hgrow
        omega
    · rw [if_neg hgrow]
      refine ⟨hpos, ?_⟩
      show 4 * (map.length + 1) < 3 * map.capacity
      omega

theorem remove_load {V : Type} (map : Hashmap V) (key : Key)
    (hpos : 0 < map.capacity) (hload : 4 * map.length < 3 * map.capacity) :
    0 < (hashmap_remove map key).1.capacity ∧
    4 * (hashmap_remove map key).1.length
      < 3 * (hashmap_remove map key).1.capacity := by
  rw [hashmap_remove]
  split
  · constructor
    · exact hpos
    · show 4 * (map.length - 1) < 3 * map.capacity
      omega
  · exact ⟨hpos, hload⟩

theorem applyOps_load {V : Type} (ops : List (Op V)) :
    ∀ map : Hashmap V, 0 < map.capacity → 4 * map.length < 3 * map.capacity →
      0 < (applyOps map ops).capacity ∧
      4 * (applyOps map ops).length < 3 * (applyOps map ops).capacity := by
  induction ops with
  | nil => intro map h1 h2; exact ⟨h1, h2⟩
  | cons op rest ih =>
    intro map h1 h2
    have hstep : 0 < (applyOp map op).capacity ∧
        4 * (applyOp map op).length < 3 * (applyOp map op).capacity := by
      cases op with
      | put k v => exact put_load map k v true h1 h2
      | put_custom k v fn => exact put_load map k v fn h1 h2
      | remove k => exact remove_load map k h1 h2
    show 0 < (List.foldl applyOp (applyOp map op) rest).capacity ∧ _
    exact ih (applyOp map op) hstep.1 hstep.2

/-! The destruction trace visits exactly the live entries. -/

theorem destroyBucketTrace_eq {V : Type} (b : Bucket V) :
    destroyBucketTrace b = b.map (fun e => (e.key, e.value)) := by
  induction b with
  | nil => rfl
  | cons e rest ih => rw [destroyBucketTrace, ih]; rfl

theorem destroy_custom_eq_entries {V : Type} (map : Hashmap V)
    (hlen : map.data.length = map.capacity) :
    hashmap_destroy_custom map = (entries map).map (fun e => (e.key, e.value)) := by
  rw [hashmap_destroy_custom, ← hlen, range_getD_map_flatten destroyBucketTrace,
    entries, List.map_flatten]
  have hfun : @destroyBucketTrace V = fun b => b.map (fun e => (e.key, e.value)) :=
    funext destroyBucketTrace_eq
  rw [hfun]

/-! The hash is the DJB2 multiply-add fold. -/

theorem hashStep_eq (h c : Nat) : hashStep h c = (h * 33 + c) % ulongMod := by
  rw [hashStep, Nat.mod_add_mod, Nat.add_assoc, Nat.mod_add_mod, ← Nat.add_assoc,
    show h * 2 ^ 5 + h = h * 33 by ring]

theorem hash_function_eq_djb2 (str : Key) :
    hash_function str = str.foldl (fun h c => (h * 33 + c) % ulongMod) 5381 := by
  rw [hash_function,
    show hashStep = fun h c => (h * 33 + c) % ulongMod from
      funext fun h => funext fun c => hashStep_eq h c]

theorem hash_function_append (str : Key) (b : Nat) :
    hash_function (str ++ [b]) = (hash_function str * 33 + b) % ulongMod := by
  rw [hash_function, hash_function, List.foldl_append]
  show hashStep (List.foldl hashStep 5381 str) b = _
  rw [hashStep_eq]

/-! The lexer's token types and keyword table (src/lexer.h). -/

/-- The token_type_t enum of lexer.h. -/
inductive token_type_t where
  | TOKEN_EOF
  | TOKEN_LEFT_BRACE
  | TOKEN_RIGHT_BRACE
  | TOKEN_LEFT_BRACKET
  | TOKEN_RIGHT_BRACKET
  | TOKEN_COLON
  | TOKEN_COMMA
  | TOKEN_LEFT_PAREN
  | TOKEN_RIGHT_PAREN
  | TOKEN_PLUS
  | TOKEN_MINUS
  | TOKEN_MULTIPLY
  | TOKEN_DIVIDE
  | TOKEN_MOD
  | TOKEN_POWER
  | TOKEN_ASSIGN
  | TOKEN_LESS
  | TOKEN_GREATER
  | TOKEN_NOT
  | TOKEN_NOT_EQUAL
  | TOKEN_EQUAL
  | TOKEN_AND_AND
  | TOKEN_OR_OR
  | TOKEN_AND_BIT
  | TOKEN_OR_BIT
  | TOKEN_LESS_EQUAL
  | TOKEN_GREATER_EQUAL
  | TOKEN_INCREMENT
  | TOKEN_DECREMENT
  | TOKEN_SHIFT_LEFT
  | TOKEN_SHIFT_RIGHT
  | TOKEN_SHIFT_LEFT_ASSIGN
  | TOKEN_SHIFT_RIGHT_ASSIGN
  | TOKEN_IDENTIFIER
  | TOKEN_STRING
  | TOKEN_NUMBER_INT
  | TOKEN_NUMBER_FLOAT
  | TOKEN_BOOLEAN
  | TOKEN_LAYOUT
  | TOKEN_IMPORT
  | TOKEN_FUNCTION
  | TOKEN_RETURN
  | TOKEN_PRINT
  | TOKEN_IF
  | TOKEN_ELSE
  | TOKEN_WHILE
  | TOKEN_FOR
  | TOKEN_BREAK
  | TOKEN_CONTINUE
  | TOKEN_ERROR
  deriving Repr, DecidableEq

open token_type_t

/-- The static keywords table of lexer.h, in its source declaration
order. -/
def keywords : List (String × token_type_t) :=
  [("layout", TOKEN_LAYOUT), ("import", TOKEN_IMPORT), ("fn", TOKEN_FUNCTION),
    ("return", TOKEN_RETURN), ("if", TOKEN_IF), ("print", TOKEN_PRINT),
    ("else", TOKEN_ELSE), ("while", TOKEN_WHILE), ("for", TOKEN_FOR),
    ("break", TOKEN_BREAK), ("continue", TOKEN_CONTINUE),
    ("true", TOKEN_BOOLEAN), ("false", TOKEN_BOOLEAN)]

/-- Modelled from the spec: the body of type_keyword lives in lexer.c,
which is not among the sources; only its declaration (lexer.h line 151)
and the keywords table are.  Per the spec, the complete identifier lexeme
is compared, in source declaration order, against the fixed keywords
table, and any lexeme not in the table is classified as a generic
identifier token. -/
def type_keyword (string : String) : token_type_t :=
  match keywords.find? (fun kw => kw.1 == string) with
  | some kw => kw.2
  | none => TOKEN_IDENTIFIER

theorem keywords_no_identifier :
    ∀ kw ∈ keywords, kw.2 ≠ TOKEN_IDENTIFIER := by decide

theorem type_keyword_not_mem {s : String} (h : s ∉ keywords.map Prod.fst) :
    type_keyword s = TOKEN_IDENTIFIER := by
  rw [type_keyword]
  cases hfind : keywords.find? (fun kw => kw.1 == s) with
  | none => rfl
  | some kw =>
    exfalso
    apply h
    have hmem := List.mem_of_find?_eq_some hfind
    have hkey : kw.1 = s := by simpa using List.find?_some hfind
    rw [← hkey]
    exact List.mem_map_of_mem Prod.fst hmem

theorem type_keyword_mem {s : String} (h : s ∈ keywords.map Prod.fst) :
    type_keyword s ≠ TOKEN_IDENTIFIER := by
  rw [type_keyword]
  cases hfind : keywords.find? (fun kw => kw.1 == s) with
  | none =>
    exfalso
    rw [List.find?_eq_none] at hfind
    obtain ⟨kw, hkw, hfst⟩ := List.mem_map.mp h
    exact hfind kw hkw (by simpa using hfst)
  | some kw =>
    exact keywords_no_identifier kw (List.mem_of_find?_eq_some hfind)

/-! The claims. -/

/-- C1: for every table created by hashmap_create with capacity >= 1 and
every finite sequence of hashmap_put / hashmap_put_custom /
hashmap_remove operations, hashmap_get returns the value passed to the
most recent put for the key (byte-equal comparison) and the NULL absence
sentinel if the key was never inserted or was last removed, and
hashmap_has reports exactly presence; since both answers are determined
by the reference last-writer-wins model at that key alone, operations on
any other key — bucket collisions included — leave them unchanged. -/
theorem C1_last_writer_wins {V : Type} (c : Nat) (hc : 0 < c) (ops : List (Op V))
    (k : Key) :
    hashmap_get (applyOps (hashmap_create V c) ops) k = (specRun ops k).join ∧
    hashmap_has (applyOps (hashmap_create V c) ops) k = (specRun ops k).isSome := by
  obtain ⟨hwf, habs⟩ := applyOps_invariant ops (hashmap_create V c) (fun _ => none)
    (wf_create c hc) (fun k' => by rw [getEntry_create]; rfl)
  have hk := habs k
  constructor
  · rw [hashmap_get_eq_getEntry, specRun, ← hk]
    cases getEntry (applyOps (hashmap_create V c) ops) k <;> rfl
  · rw [hashmap_has_eq_getEntry, specRun, ← hk]
    cases getEntry (applyOps (hashmap_create V c) ops) k <;> rfl

theorem C1_last_writer_wins_witness :
    0 < 2 ∧
    (hashmap_get (applyOps (hashmap_create Nat 2)
        [Op.put [1] (some 10), Op.put [2] (some 20), Op.remove [1]]) [1]
      = (specRun [Op.put [1] (some 10), Op.put [2] (some 20), Op.remove [1]] [1]).join ∧
    hashmap_has (applyOps (hashmap_create Nat 2)
        [Op.put [1] (some 10), Op.put [2] (some 20), Op.remove [1]]) [1]
      = (specRun [Op.put [1] (some 10), Op.put [2] (some 20), Op.remove [1]] [1]).isSome) :=
  ⟨by decide, C1_last_writer_wins 2 (by decide)
    [Op.put [1] (some 10), Op.put [2] (some 20), Op.remove [1]] [1]⟩

/-- C2: for every table created by hashmap_create with capacity >= 1 and
any sequence of operations — so in particular immediately after every
hashmap_put / hashmap_put_custom — the load factor stays strictly below
0.75: 4 * length < 3 * capacity, the single doubling on growth always
sufficing to restore the bound. -/
theorem C2_load_factor {V : Type} (c : Nat) (hc : 0 < c) (ops : List (Op V)) :
    4 * (applyOps (hashmap_create V c) ops).length
      < 3 * (applyOps (hashmap_create V c) ops).capacity :=
  (applyOps_load ops (hashmap_create V c) (by simpa [hashmap_create] using hc)
    (by simp [hashmap_create]; omega)).2

theorem C2_load_factor_witness :
    0 < 1 ∧
    4 * (applyOps (hashmap_create Nat 1)
        [Op.put [1] (some 10), Op.put [2] (some 20)]).length
      < 3 * (applyOps (hashmap_create Nat 1)
        [Op.put [1] (some 10), Op.put [2] (some 20)]).capacity :=
  ⟨by decide, C2_load_factor 1 (by decide) [Op.put [1] (some 10), Op.put [2] (some 20)]⟩

/-- C3: when inserting a fresh key makes the post-insert load factor reach
0.75, the table grows: the new capacity is exactly double, every entry
ends up in the bucket of its key's hash modulo the new capacity, and the
grown table is observationally equivalent to the old table plus the new
binding — hashmap_get and hashmap_has agree on every key, and the count
is the pre-insert count plus one. -/
theorem C3_grow_equiv {V : Type} {map : Hashmap V} (h : Wf map) {key : Key}
    (hfresh : getEntry map key = none) (value : Option V) (free_fn : Bool)
    (htrig : 3 * map.capacity ≤ 4 * (map.length + 1)) :
    (hashmap_put_custom map key value free_fn).1.capacity = 2 * map.capacity ∧
    (∀ i : Nat, ∀ e ∈ (hashmap_put_custom map key value free_fn).1.data.getD i [],
      hash_function e.key % (hashmap_put_custom map key value free_fn).1.capacity = i) ∧
    (∀ k', hashmap_get (hashmap_put_custom map key value free_fn).1 k'
      = if k' = key then value else hashmap_get map k') ∧
    (∀ k', hashmap_has (hashmap_put_custom map key value free_fn).1 k'
      = (decide (k' = key) || hashmap_has map k')) ∧
    (hashmap_put_custom map key value free_fn).1.length = map.length + 1 := by
  have hwf' := put_wf h key value free_fn
  have hget := put_getEntry h key value free_fn
  refine ⟨?_, hwf'.2.2.1, ?_, ?_, ?_⟩
  · rw [put_custom_fresh hfresh, if_pos htrig]
    show (hashmap_grow (insertNew map key value)).capacity = 2 * map.capacity
    rw [grow_capacity]
    show map.capacity * 2 = 2 * map.capacity
    exact Nat.mul_comm _ _
  · intro k'
    rw [hashmap_get_eq_getEntry, hget k']
    by_cases hk : k' = key
    · simp [hk]
    · rw [if_neg hk, if_neg hk, hashmap_get_eq_getEntry]
  · intro k'
    rw [hashmap_has_eq_getEntry, hget k']
    by_cases hk : k' = key <;> simp [hk, hashmap_has_eq_getEntry]
  · rw [put_custom_fresh hfresh, if_pos htrig]
    rfl

theorem C3_grow_equiv_witness :
    Wf (hashmap_create Nat 1) ∧
    getEntry (hashmap_create Nat 1) [5] = none ∧
    3 * (hashmap_create Nat 1).capacity ≤ 4 * ((hashmap_create Nat 1).length + 1) ∧
    ((hashmap_put_custom (hashmap_create Nat 1) [5] (some 7) true).1.capacity
        = 2 * (hashmap_create Nat 1).capacity ∧
      (∀ i : Nat,
        ∀ e ∈ (hashmap_put_custom (hashmap_create Nat 1) [5] (some 7) true).1.data.getD i [],
        hash_function e.key
            % (hashmap_put_custom (hashmap_create Nat 1) [5] (some 7) true).1.capacity = i) ∧
      (∀ k', hashmap_get (hashmap_put_custom (hashmap_create Nat 1) [5] (some 7) true).1 k'
        = if k' = [5] then some 7 else hashmap_get (hashmap_create Nat 1) k') ∧
      (∀ k', hashmap_has (hashmap_put_custom (hashmap_create Nat 1) [5] (some 7) true).1 k'
        = (decide (k' = [5]) || hashmap_has (hashmap_create Nat 1) k')) ∧
      (hashmap_put_custom (hashmap_create Nat 1) [5] (some 7) true).1.length
        = (hashmap_create Nat 1).length + 1) :=
  ⟨wf_create 1 (by decide), by decide, by decide,
    C3_grow_equiv (wf_create 1 (by decide)) (by decide) (some 7) true (by decide)⟩

/-- C4: hashmap_remove on a present key hands back exactly the stored
value (the embedded remove applies no destructor to it), decrements the
count by one, keeps the capacity, detaches exactly the matching entry —
the key becomes absent while every other key's entry is untouched;
hashmap_remove on an absent key returns the table unchanged together with
the NULL absence sentinel. -/
theorem C4_remove {V : Type} {map : Hashmap V} (h : Wf map) (key : Key) :
    (∀ e : Entry V, getEntry map key = some e →
      (hashmap_remove map key).2 = e.value ∧
      (hashmap_remove map key).1.length + 1 = map.length ∧
      (hashmap_remove map key).1.capacity = map.capacity ∧
      getEntry (hashmap_remove map key).1 key = none ∧
      (∀ k', k' ≠ key → getEntry (hashmap_remove map key).1 k' = getEntry map k')) ∧
    (getEntry map key = none → hashmap_remove map key = (map, none)) := by
  constructor
  · intro e hfind
    obtain ⟨hv, hwf', hcap, hlen, hget⟩ := hashmap_remove_hit h hfind
    exact ⟨hv, hlen, hcap, by rw [hget key, if_pos rfl],
      fun k' hk => by rw [hget k', if_neg hk]⟩
  · exact hashmap_remove_miss

theorem C4_remove_witness :
    Wf (hashmap_put (hashmap_create Nat 1) [3] (some 9)).1 ∧
    getEntry (hashmap_put (hashmap_create Nat 1) [3] (some 9)).1 [3]
      = some ⟨[3], some 9⟩ ∧
    (hashmap_remove (hashmap_put (hashmap_create Nat 1) [3] (some 9)).1 [3]).2 = some 9 ∧
    (hashmap_remove (hashmap_put (hashmap_create Nat 1) [3] (some 9)).1 [3]).1.length + 1
      = (hashmap_put (hashmap_create Nat 1) [3] (some 9)).1.length := by
  have hwf : Wf (hashmap_put (hashmap_create Nat 1) [3] (some 9)).1 :=
    put_wf (wf_create 1 (by decide)) [3] (some 9) true
  have h := (C4_remove hwf [3]).1 ⟨[3], some 9⟩ (by decide)
  exact ⟨hwf, by decide, h.1, h.2.1⟩

/-- C5: hashmap_put_custom on an already-present key invokes the
destructor exactly once on the old value (never when the destructor
reference is NULL), replaces the value in place, and leaves the entry
count, the capacity and every bucket's key sequence — hence the entry's
chain position — unchanged; in particular an overwrite never grows the
table. -/
theorem C5_overwrite {V : Type} {map : Hashmap V} (h : Wf map) {key : Key}
    {e : Entry V} (hfind : getEntry map key = some e) (value : Option V)
    (free_fn : Bool) :
    (hashmap_put_custom map key value free_fn).2 = (if free_fn then [e.value] else []) ∧
    (hashmap_put_custom map key value free_fn).1.capacity = map.capacity ∧
    (hashmap_put_custom map key value free_fn).1.length = map.length ∧
    (hashmap_put_custom map key value free_fn).1.data.map (fun b => b.map Entry.key)
      = map.data.map (fun b => b.map Entry.key) ∧
    hashmap_get (hashmap_put_custom map key value free_fn).1 key = value := by
  obtain ⟨hwf', htr, hcap, hlen, hkeys, hget⟩ := put_replace_facts h hfind value free_fn
  refine ⟨htr, hcap, hlen, hkeys, ?_⟩
  rw [hashmap_get_eq_getEntry, hget key, if_pos rfl]
  rfl

theorem C5_overwrite_witness :
    Wf (hashmap_put (hashmap_create Nat 1) [3] (some 9)).1 ∧
    getEntry (hashmap_put (hashmap_create Nat 1) [3] (some 9)).1 [3]
      = some ⟨[3], some 9⟩ ∧
    (hashmap_put_custom (hashmap_put (hashmap_create Nat 1) [3] (some 9)).1
        [3] (some 4) true).2 = [some 9] ∧
    (hashmap_put_custom (hashmap_put (hashmap_create Nat 1) [3] (some 9)).1
        [3] (some 4) false).2 = ([] : List (Option Nat)) ∧
    hashmap_get (hashmap_put_custom (hashmap_put (hashmap_create Nat 1) [3] (some 9)).1
        [3] (some 4) true).1 [3] = some 4 := by
  have hwf : Wf (hashmap_put (hashmap_create Nat 1) [3] (some 9)).1 :=
    put_wf (wf_create 1 (by decide)) [3] (some 9) true
  have h1 := C5_overwrite hwf (by decide :
    getEntry (hashmap_put (hashmap_create Nat 1) [3] (some 9)).1 [3]
      = some ⟨[3], some 9⟩) (some 4) true
  have h2 := C5_overwrite hwf (by decide :
    getEntry (hashmap_put (hashmap_create Nat 1) [3] (some 9)).1 [3]
      = some ⟨[3], some 9⟩) (some 4) false
  exact ⟨hwf, by decide, h1.1, h2.1, h1.2.2.2.2⟩

/-- C6: hashmap_put_custom on a key not yet present stores an owned
byte-equal copy of the key in a new entry, increments the count by
exactly one, invokes no destructor, makes the key retrievable with its
value, and — when no growth is triggered — prepends the new entry to the
front of its bucket's chain, so traversal order within a bucket is
most-recently-inserted first. -/
theorem C6_fresh_insert {V : Type} {map : Hashmap V} (h : Wf map) {key : Key}
    (hfresh : getEntry map key = none) (value : Option V) (free_fn : Bool) :
    (hashmap_put_custom map key value free_fn).1.length = map.length + 1 ∧
    (hashmap_put_custom map key value free_fn).2 = [] ∧
    hashmap_has (hashmap_put_custom map key value free_fn).1 key = true ∧
    hashmap_get (hashmap_put_custom map key value free_fn).1 key = value ∧
    (4 * (map.length + 1) < 3 * map.capacity →
      (hashmap_put_custom map key value free_fn).1.data
        = map.data.set (hash_function key % map.capacity)
          (⟨key, value⟩ :: map.data.getD (hash_function key % map.capacity) []) ∧
      (hashmap_put_custom map key value free_fn).1.capacity = map.capacity) := by
  have hget := put_getEntry h key value free_fn
  refine ⟨?_, ?_, ?_, ?_, ?_⟩
  · rw [put_custom_fresh hfresh]
    by_cases hgrow : 3 * map.capacity ≤ 4 * (map.length + 1)
    · rw [if_pos hgrow]; rfl
    · rw [if_neg hgrow]; rfl
  · rw [put_custom_fresh hfresh]
    by_cases hgrow : 3 * map.capacity ≤ 4 * (map.length + 1)
    · rw [if_pos hgrow]
    · rw [if_neg hgrow]
  · rw [hashmap_has_eq_getEntry, hget key, if_pos rfl]
    rfl
  · rw [hashmap_get_eq_getEntry, hget key, if_pos rfl]
    rfl
  · intro hnog
    have hgrow : ¬ 3 * map.capacity ≤ 4 * (map.length + 1) := by omega
    rw [put_custom_fresh hfresh, if_neg hgrow]
    exact ⟨rfl, rfl⟩

theorem C6_fresh_insert_witness :
    Wf (hashmap_create Nat 3) ∧
    getEntry (hashmap_create Nat 3) [7] = none ∧
    ((hashmap_put_custom (hashmap_create Nat 3) [7] (some 1) true).1.length
        = (hashmap_create Nat 3).length + 1 ∧
      (hashmap_put_custom (hashmap_create Nat 3) [7] (some 1) true).2 = [] ∧
      hashmap_has (hashmap_put_custom (hashmap_create Nat 3) [7] (some 1) true).1 [7]
        = true ∧
      hashmap_get (hashmap_put_custom (hashmap_create Nat 3) [7] (some 1) true).1 [7]
        = some 1 ∧
      (4 * ((hashmap_create Nat 3).length + 1) < 3 * (hashmap_create Nat 3).capacity →
        (hashmap_put_custom (hashmap_create Nat 3) [7] (some 1) true).1.data
          = (hashmap_create Nat 3).data.set
              (hash_function [7] % (hashmap_create Nat 3).capacity)
              (⟨[7], some 1⟩ :: (hashmap_create Nat 3).data.getD
                (hash_function [7] % (hashmap_create Nat 3).capacity) []) ∧
        (hashmap_put_custom (hashmap_create Nat 3) [7] (some 1) true).1.capacity
          = (hashmap_create Nat 3).capacity)) :=
  ⟨wf_create 3 (by decide), by decide,
    C6_fresh_insert (wf_create 3 (by decide)) (by decide) (some 1) true⟩

/-- C7: destroying a table visits every live entry exactly once — the
destruction trace releases each stored key once, with no key repeated,
and a pair is in the trace exactly when it is a live entry of the table —
and hashmap_destroy is hashmap_destroy_custom with the default
destructor. -/
theorem C7_destroy {V : Type} {map : Hashmap V} (h : Wf map) :
    ((hashmap_destroy_custom map).map Prod.fst).Nodup ∧
    (∀ p : Key × Option V, p ∈ hashmap_destroy_custom map
      ↔ getEntry map p.1 = some ⟨p.1, p.2⟩) ∧
    hashmap_destroy map = hashmap_destroy_custom map := by
  have hd := destroy_custom_eq_entries map h.1
  refine ⟨?_, ?_, rfl⟩
  · rw [hd]
    have hm : ((entries map).map (fun e => (e.key, e.value))).map Prod.fst
        = (entries map).map Entry.key := by
      rw [List.map_map]; rfl
    rw [hm]
    exact h.2.2.2.1
  · intro p
    rw [hd]
    constructor
    · intro hp
      obtain ⟨e, he, hpe⟩ := List.mem_map.mp hp
      rw [getEntry_eq_some_iff h]
      have hep : e = ⟨p.1, p.2⟩ := by
        cases e
        cases p
        simp at hpe
        simp [hpe.1, hpe.2]
      rw [← hep]
      exact ⟨he, by rw [hep]⟩
    · intro hp
      obtain ⟨hmem, _⟩ := (getEntry_eq_some_iff h _ _).mp hp
      exact List.mem_map.mpr ⟨⟨p.1, p.2⟩, hmem, rfl⟩

theorem C7_destroy_witness :
    Wf (hashmap_put (hashmap_create Nat 2) [3] (some 9)).1 ∧
    (((hashmap_destroy_custom
        (hashmap_put (hashmap_create Nat 2) [3] (some 9)).1).map Prod.fst).Nodup ∧
      hashmap_destroy (hashmap_put (hashmap_create Nat 2) [3] (some 9)).1
        = hashmap_destroy_custom (hashmap_put (hashmap_create Nat 2) [3] (some 9)).1) := by
  have hwf : Wf (hashmap_put (hashmap_create Nat 2) [3] (some 9)).1 :=
    put_wf (wf_create 2 (by decide)) [3] (some 9) true
  have h := C7_destroy hwf
  exact ⟨hwf, h.1, h.2.2⟩

/-- C8: the hash used by put, get, has and remove is the DJB2 fold over
the key's bytes — 5381 to start, hash * 33 + byte at each byte, wrapping
as 64-bit unsigned arithmetic — and on growth every entry lands in the
bucket of its hash modulo the doubled capacity. -/
theorem C8_hash {V : Type} :
    (∀ str : Key,
      hash_function str = str.foldl (fun h c => (h * 33 + c) % 2 ^ 64) 5381) ∧
    hash_function [] = 5381 ∧
    (∀ (str : Key) (b : Nat),
      hash_function (str ++ [b]) = (hash_function str * 33 + b) % 2 ^ 64) ∧
    (∀ map : Hashmap V, 0 < map.capacity →
      (hashmap_grow map).capacity = map.capacity * 2 ∧
      ∀ i : Nat, ∀ e ∈ (hashmap_grow map).data.getD i [],
        hash_function e.key % (hashmap_grow map).capacity = i) := by
  refine ⟨hash_function_eq_djb2, rfl, hash_function_append, ?_⟩
  intro map hpos
  have hpos2 : 0 < map.capacity * 2 := by omega
  have hdata : (hashmap_grow map).data
      = (((List.range map.capacity).map (fun i => map.data.getD i [])).flatten).foldl
          (rehashInsert (map.capacity * 2)) (List.replicate (map.capacity * 2) []) := rfl
  refine ⟨grow_capacity map, ?_⟩
  intro i e he
  rw [grow_capacity]
  rw [hdata] at he
  refine rehashFold_bucket_inv (map.capacity * 2) hpos2 _ _ (by simp) ?_ i e he
  intro j x hx
  rw [getD_replicate_nil] at hx
  exact absurd hx (List.not_mem_nil x)

theorem C8_hash_witness :
    0 < (hashmap_create Nat 2).capacity ∧
    ((hashmap_grow (hashmap_create Nat 2)).capacity = (hashmap_create Nat 2).capacity * 2 ∧
      ∀ i : Nat, ∀ e ∈ (hashmap_grow (hashmap_create Nat 2)).data.getD i [],
        hash_function e.key % (hashmap_grow (hashmap_create Nat 2)).capacity = i) :=
  ⟨by decide, (@C8_hash Nat).2.2.2 (hashmap_create Nat 2) (by decide)⟩

/-- C9: keyword classification compares the complete identifier lexeme
against the fixed keywords table in its source declaration order; that
table maps exactly the reserved words layout, import, fn, return, if,
print, else, while, for, break and continue to their pairwise distinct
dedicated token types, maps both true and false to the boolean-literal
token type, and every other lexeme is classified as the generic
identifier token. -/
theorem C9_keyword_classification :
    type_keyword "layout" = TOKEN_LAYOUT ∧
    type_keyword "import" = TOKEN_IMPORT ∧
    type_keyword "fn" = TOKEN_FUNCTION ∧
    type_keyword "return" = TOKEN_RETURN ∧
    type_keyword "if" = TOKEN_IF ∧
    type_keyword "print" = TOKEN_PRINT ∧
    type_keyword "else" = TOKEN_ELSE ∧
    type_keyword "while" = TOKEN_WHILE ∧
    type_keyword "for" = TOKEN_FOR ∧
    type_keyword "break" = TOKEN_BREAK ∧
    type_keyword "continue" = TOKEN_CONTINUE ∧
    type_keyword "true" = TOKEN_BOOLEAN ∧
    type_keyword "false" = TOKEN_BOOLEAN ∧
    keywords.map Prod.fst = ["layout", "import", "fn", "return", "if", "print",
      "else", "while", "for", "break", "continue", "true", "false"] ∧
    ([TOKEN_LAYOUT, TOKEN_IMPORT, TOKEN_FUNCTION, TOKEN_RETURN, TOKEN_IF, TOKEN_PRINT,
      TOKEN_ELSE, TOKEN_WHILE, TOKEN_FOR, TOKEN_BREAK, TOKEN_CONTINUE, TOKEN_BOOLEAN,
      TOKEN_IDENTIFIER] : List token_type_t).Nodup ∧
    (∀ s : String, type_keyword s = TOKEN_IDENTIFIER ↔ s ∉ keywords.map Prod.fst) :=
  ⟨by decide, by decide, by decide, by decide, by decide, by decide, by decide,
    by decide, by decide, by decide, by decide, by decide, by decide, by decide,
    by decide,
    fun s => ⟨fun h hmem => type_keyword_mem hmem h, type_keyword_not_mem⟩⟩

/-- C10: the NULL absence sentinel of hashmap_get is indistinguishable
from a stored NULL value: after inserting a key with the NULL value,
hashmap_get returns NULL while hashmap_has returns true; and hashmap_has
is true exactly when an entry with a byte-equal key is live, whatever its
value.  (hashmap_get and hashmap_has are embedded as pure functions — the
source bodies only read the table.) -/
theorem C10_null_value {V : Type} {map : Hashmap V} (h : Wf map) (key : Key)
    (free_fn : Bool) :
    hashmap_get (hashmap_put_custom map key none free_fn).1 key = none ∧
    hashmap_has (hashmap_put_custom map key none free_fn).1 key = true ∧
    (∀ k', hashmap_has map k' = true ↔ ∃ e ∈ entries map, e.key = k') := by
  have hget := put_getEntry h key none free_fn
  refine ⟨?_, ?_, ?_⟩
  · rw [hashmap_get_eq_getEntry, hget key, if_pos rfl]
    rfl
  · rw [hashmap_has_eq_getEntry, hget key, if_pos rfl]
    rfl
  · intro k'
    rw [hashmap_has_eq_getEntry]
    constructor
    · intro hs
      cases hfind : getEntry map k' with
      | none => rw [hfind] at hs; simp at hs
      | some e =>
        obtain ⟨hmem, hkey⟩ := (getEntry_eq_some_iff h k' e).mp hfind
        exact ⟨e, hmem, hkey⟩
    · rintro ⟨e, hmem, hkey⟩
      rw [(getEntry_eq_some_iff h k' e).mpr ⟨hmem, hkey⟩]
      rfl

theorem C10_null_value_witness :
    Wf (hashmap_create Nat 2) ∧
    (hashmap_get (hashmap_put_custom (hashmap_create Nat 2) [4] none true).1 [4] = none ∧
      hashmap_has (hashmap_put_custom (hashmap_create Nat 2) [4] none true).1 [4] = true) := by
  have hwf : Wf (hashmap_create Nat 2) := wf_create 2 (by decide)
  have h := C10_null_value hwf [4] true
  exact ⟨hwf, h.1, h.2.1⟩

end Salam
